import Mathlib

/-!
Verification of the retrieval pipeline in `functions.py`.

The program's text data (Python `str`, SQL strings) is modelled as `List Char`;
the database tables `abc_table` and `abc_chunks` are modelled as explicit lists
of rows; the store's `rand()` sampling is modelled by an explicit stream of
natural-number draws; the two unbounded `while` loops are modelled with an
explicit fuel argument, where a `none` result means the loop was still running
when the fuel ran out (so `∀ fuel, ... = none` exhibits divergence).
-/

/-!
Embedding of the Stage-1 keyword filter of
`query_clickhouse_word_with_multi_stage` (`functions.py` lines 222-229):
the chunk condition is `lower(chunk_text) LIKE lower('%w1%w2%...%wn%')`, the
pattern built by joining `important_words` with `%`.  In SQL LIKE, `%` matches
any (possibly empty) character sequence and `_` matches exactly one arbitrary
character; all other characters match literally.
-/

/-- Predicate `leadsWith w t`: holds when the word `w` is a literal leading segment of `t`
(character-wise equality). -/
def leadsWith : List Char → List Char → Bool
  | [], _ => true
  | _ :: _, [] => false
  | a :: w, b :: t => a = b && leadsWith w t

/-- Remainder of `t` after the first literal occurrence of `w`, if any
(the core of Python's `split(w, 1)[-1]` and of substring search). -/
def subsAfterExact (w : List Char) : List Char → Option (List Char)
  | [] => if leadsWith w [] then some (([] : List Char).drop w.length) else none
  | c :: t =>
    if leadsWith w (c :: t) then some ((c :: t).drop w.length)
    else subsAfterExact w t

/-- Boolean substring test: Python's `needle in haystack`. -/
def hasSubstr (w t : List Char) : Bool := (subsAfterExact w t).isSome

/-- Python `s.split(w, 1)[-1]`: everything after the first occurrence of `w`,
or `s` itself when `w` does not occur. -/
def dropThroughFirst (w t : List Char) : List Char :=
  match subsAfterExact w t with
  | some r => r
  | none => t

/-- One LIKE pattern character versus one text character: `_` matches any
character, anything else matches itself. -/
def charLikeMatch (p c : Char) : Bool := p = '_' || p = c

/-- Predicate `likeLeads w t`: the LIKE word `w` matches a leading segment of `t`
(of length `w.length`, since `%` never occurs inside an important word). -/
def likeLeads : List Char → List Char → Bool
  | [], _ => true
  | _ :: _, [] => false
  | p :: w, c :: t => charLikeMatch p c && likeLeads w t

/-- Remainder of `t` after the first LIKE occurrence of the word `w`. -/
def subsAfterLike (w : List Char) : List Char → Option (List Char)
  | [] => if likeLeads w [] then some (([] : List Char).drop w.length) else none
  | c :: t =>
    if likeLeads w (c :: t) then some ((c :: t).drop w.length)
    else subsAfterLike w t

/-- The LIKE pattern `%w1%w2%...%wn%` against text `t`, scanned left to right
(each word consumed at its first LIKE occurrence). -/
def likeMatches : List (List Char) → List Char → Bool
  | [], _ => true
  | w :: ws, t =>
    match subsAfterLike w t with
    | some r => likeMatches ws r
    | none => false

/-- Exact counterpart of `likeMatches` with literal (wildcard-free) word
matching: every word occurs as a literal substring, in the given order. -/
def occursInOrder : List (List Char) → List Char → Bool
  | [], _ => true
  | w :: ws, t =>
    match subsAfterExact w t with
    | some r => occursInOrder ws r
    | none => false

/-- Declarative version of ordered literal containment: the text splits as
`a₁ ++ w₁ ++ a₂ ++ w₂ ++ ... ++ wₙ ++ rest`. -/
inductive OrderedOccurs : List (List Char) → List Char → Prop
  | nil (t : List Char) : OrderedOccurs [] t
  | cons (w : List Char) (ws : List (List Char)) (a rest : List Char) :
      OrderedOccurs ws rest → OrderedOccurs (w :: ws) (a ++ (w ++ rest))

/-- ASCII lowercasing, the effect of ClickHouse `lower()` (and of Python
`str.lower()` on ASCII data). -/
def lowerL (l : List Char) : List Char := l.map Char.toLower

/-- The Stage-1 chunk condition of `query_clickhouse_word_with_multi_stage`:
`lower(chunk_text) LIKE lower('%' + '%'.join(important_words) + '%')`. -/
def stage1Match (importantWords : List String) (chunkText : String) : Bool :=
  likeMatches (importantWords.map fun w => lowerL w.data) (lowerL chunkText.data)

/-- The literal ingestion artifact searched for by
`original_filename.split('None', 1)`. -/
def noneWord : List Char := ['N', 'o', 'n', 'e']

/-- Python whitespace for `str.strip()`. -/
def pyIsSpace (c : Char) : Bool :=
  c == ' ' || c == '\t' || c == '\n' || c == '\r' || c == Char.ofNat 11 || c == Char.ofNat 12

/-- Python `str.strip()` with no argument: trim whitespace on both ends. -/
def pyStrip (l : List Char) : List Char :=
  ((l.dropWhile pyIsSpace).reverse.dropWhile pyIsSpace).reverse

/-- The segment of `l` after the last occurrence of `c` (all of `l` when `c`
does not occur): `p[p.rfind(c)+1:]`. -/
def rAfterLast (c : Char) (l : List Char) : List Char :=
  (l.reverse.takeWhile (· != c)).reverse

/-- Python `os.path.splitext(p)[0]` (POSIX rules): cut at the last dot of the last
`/`-segment, unless every character before that dot in the segment is a dot
(leading-dot filenames such as `.bashrc` keep their name). -/
def pySplitextRoot (l : List Char) : List Char :=
  let bn := rAfterLast '/' l
  let pre := l.take (l.length - bn.length)
  let afterDot := bn.reverse.takeWhile (· != '.')
  if afterDot.length = bn.length then l
  else
    let stem := bn.take (bn.length - afterDot.length - 1)
    if stem.any (· != '.') then pre ++ stem else l

/-- Characters allowed in a URL scheme by `urllib.parse`. -/
def schemeChar (c : Char) : Bool :=
  c.isAlpha || c.isDigit || c == '+' || c == '-' || c == '.'

/-- The `path` component of `urllib.parse.urlparse`: strip unsafe bytes, cut
the fragment at the first `#`, strip a leading `scheme:`, strip a leading
`//netloc`, and cut the query at the first `?`. -/
def pyUrlparsePath (l : List Char) : List Char :=
  let l0 := l.filter fun c => !(c == '\t' || c == '\r' || c == '\n')
  let l1 := l0.takeWhile (· != '#')
  let l2 :=
    match l1.takeWhile (· != ':') with
    | [] => l1
    | c :: cs =>
      if (decide ((c :: cs).length < l1.length) && c.isAlpha
          && (c :: cs).all schemeChar) = true then
        l1.drop ((c :: cs).length + 1)
      else l1
  let l3 :=
    if leadsWith ['/', '/'] l2 then
      (l2.drop 2).dropWhile fun c => c != '/' && c != '?'
    else l2
  l3.takeWhile (· != '?')

/-- Python `parsed_url.path.split('/')[-1]`: the last `/`-segment of the path. -/
def lastSlashSegment (l : List Char) : List Char := rAfterLast '/' l

/-- The filename-to-URL transformation of `get_original_filename` /
`get_random_filename` (`functions.py` lines 92-97 and 314-319):
`split('None', 1)[-1]`, `.strip()`, `os.path.splitext(...)[0]`,
`urlparse(...)`, `.path.split('/')[-1]`, then prepend the base URL. -/
def filenameToUrl (base : String) (fn : String) : String :=
  let l1 := dropThroughFirst noneWord fn.data
  let l2 := pyStrip l1
  let l3 := pySplitextRoot l2
  let l4 := pyUrlparsePath l3
  let l5 := lastSlashSegment l4
  base ++ String.mk l5

/-- Value of a hexadecimal digit, for percent-decoding. -/
def hexVal (c : Char) : Option Nat :=
  if '0' ≤ c ∧ c ≤ '9' then some (c.toNat - '0'.toNat)
  else if 'a' ≤ c ∧ c ≤ 'f' then some (c.toNat - 'a'.toNat + 10)
  else if 'A' ≤ c ∧ c ≤ 'F' then some (c.toNat - 'A'.toNat + 10)
  else none

/-- URL percent-decoding (`urllib.parse.unquote` on ASCII data): `%xy` with
two hex digits becomes the character with code `16*x + y`; anything else is
kept as is.  Used only by the claim-side definition below — the source never
decodes. -/
def percentDecode : List Char → List Char
  | [] => []
  | '%' :: a :: b :: rest =>
    match hexVal a, hexVal b with
    | some x, some y => Char.ofNat (16 * x + y) :: percentDecode rest
    | _, _ => '%' :: percentDecode (a :: b :: rest)
  | c :: rest => c :: percentDecode rest

/-- The resolution transformation as claim C4 words it: strip a literal
`"None"` **prefix** (text before a non-prefix `None` is kept), strip the
extension, URL-decode, extract the last path segment, prepend the base URL. -/
def claimedResolveTransform (base : String) (fn : String) : String :=
  let l1 := if leadsWith noneWord fn.data then fn.data.drop 4 else fn.data
  let l2 := pyStrip l1
  let l3 := pySplitextRoot l2
  let l4 := percentDecode l3
  let l5 := lastSlashSegment (pyUrlparsePath l4)
  base ++ String.mk l5

/-- A row of `abc_table`: a document with its stored original filename. -/
structure TableRow where
  id : String
  original_filename : String
deriving DecidableEq

/-- A row of `abc_chunks`: a text chunk of the document `summary_id`.
The embedding vector is irrelevant to the claims proved here and omitted. -/
structure ChunkRow where
  id : Int
  summary_id : String
  chunk_text : String
deriving DecidableEq

/-- The chunk+document store. -/
structure Db where
  table : List TableRow
  chunks : List ChunkRow

/-- The `ORDER BY id` comparison for chunk rows. -/
def chunkRowLe (a b : ChunkRow) : Prop := a.id ≤ b.id

instance : DecidableRel chunkRowLe := fun a b => inferInstanceAs (Decidable (a.id ≤ b.id))

instance : IsTotal ChunkRow chunkRowLe := ⟨fun a b => Int.le_total a.id b.id⟩

instance : IsTrans ChunkRow chunkRowLe := ⟨fun _ _ _ h h' => Int.le_trans h h'⟩

/-- Model of `get_random_filename` (`functions.py` lines 309-324): one uniformly random
row of `abc_table` (`ORDER BY rand() LIMIT 1`, modelled by an arbitrary draw
`pick` reduced mod the table size), transformed by `filenameToUrl`; `None`
when the table is empty. -/
def get_random_filename (base : String) (table : List TableRow) (pick : Nat) :
    Option String :=
  if h : table.length = 0 then none
  else
    some (filenameToUrl base
      (table.get ⟨pick % table.length, Nat.mod_lt _ (Nat.pos_of_ne_zero h)⟩).original_filename)

/-- Model of `get_original_filename` (`functions.py` lines 87-103): look up the row of
`abc_table` with the given id, transform its filename; fall back to
`get_random_filename` when the lookup returns no row. -/
def get_original_filename (base : String) (table : List TableRow) (sid : String)
    (pick : Nat) : Option String :=
  match table.find? (fun r => r.id == sid) with
  | some row => some (filenameToUrl base row.original_filename)
  | none => get_random_filename base table pick

/-- The row set selected and ordered by the `get_surrounding_chunks` query:
same document, ordinal id within the window, `ORDER BY id`. -/
def selectedRows (chunks : List ChunkRow) (id : Int) (sid : String) (w : Int) :
    List ChunkRow :=
  List.insertionSort chunkRowLe
    (chunks.filter fun r =>
      decide (r.summary_id = sid ∧ id - w ≤ r.id ∧ r.id ≤ id + w))

/-- Model of `get_surrounding_chunks` (`functions.py` lines 74-85): texts of the chunks
of document `sid` whose id lies in `[id - w, id + w]`, in ascending id order,
joined with single spaces.  The source defaults `window_size` to 2; the model
takes it explicitly. -/
def get_surrounding_chunks (chunks : List ChunkRow) (id : Int) (sid : String)
    (w : Int) : String :=
  String.intercalate " " ((selectedRows chunks id sid w).map (·.chunk_text))

/-- Python `"None"`-erasure of `filename.replace("None", "")`: all
non-overlapping occurrences of the four characters of `noneWord`, scanned
left to right. -/
def eraseAllNone : List Char → List Char
  | 'N' :: 'o' :: 'n' :: 'e' :: rest => eraseAllNone rest
  | c :: rest => c :: eraseAllNone rest
  | [] => []

/-- The filename normalisation of `get_pdf_description` (`functions.py` lines
273-276): `os.path.basename`, append `.pdf` unless already there, then erase
every `"None"`. -/
def pdfNormalizeFilename (url : String) : String :=
  let f1 := rAfterLast '/' url.data
  let f2 := if leadsWith ".pdf".data.reverse f1.reverse then f1 else f1 ++ ".pdf".data
  String.mk (eraseAllNone f2)

/-- The lowest-ordinal chunk of a document
(`SELECT chunk_text ... ORDER BY id ASC LIMIT 1`). -/
def firstChunk (chunks : List ChunkRow) (sid : String) : Option ChunkRow :=
  (List.insertionSort chunkRowLe (chunks.filter fun r => r.summary_id == sid)).head?

/-- The truncation of `get_pdf_description` (`functions.py` line 297):
`(d[:247] + '...') if len(d) > 250 else d`. -/
def pyTruncateDescription (s : String) : String :=
  if 250 < s.data.length then String.mk (s.data.take 247 ++ "...".data) else s

/-- Model of `get_pdf_description` (`functions.py` lines 270-306): normalise the url
back to a filename, look it up in `abc_table` by exact filename match, fetch
that document's lowest-ordinal chunk and truncate it.  The store-fault branch
("Error retrieving description.") has no counterpart in the pure model. -/
def get_pdf_description (db : Db) (url : String) : String :=
  match db.table.find? (fun r => r.original_filename == pdfNormalizeFilename url) with
  | none => "File not found."
  | some row =>
    match firstChunk db.chunks row.id with
    | none => "Description not found."
    | some c => pyTruncateDescription c.chunk_text

/-- First-occurrence deduplication of a list of urls, skipping those already
in `seen` (specification-side description of the first loop of
`deduplicate_results`). -/
def firstDedupFrom (seen : List String) : List String → List String
  | [] => []
  | u :: rest =>
    if u ∈ seen then firstDedupFrom seen rest
    else u :: firstDedupFrom (seen ++ [u]) rest

/-- First-occurrence deduplication: keeps the first occurrence of each
distinct url, in input order. -/
def firstDedup (l : List String) : List String := firstDedupFrom [] l

/-- The first loop of `deduplicate_results` (`functions.py` lines 334-341):
walk the candidates in order, skip urls already seen, stop as soon as `top_n`
contexts are collected.  State: collected contexts, filenames, seen set. -/
def firstPass (top_n : Nat) :
    List (String × String) → List String → List String → List String →
      List String × List String × List String
  | [], ctxs, fns, seen => (ctxs, fns, seen)
  | (c, u) :: rest, ctxs, fns, seen =>
    if top_n ≤ ctxs.length then (ctxs, fns, seen)
    else if u ∈ seen then firstPass top_n rest ctxs fns seen
    else firstPass top_n rest (ctxs ++ [c]) (fns ++ [u]) (seen ++ [u])

/-- The backfill `while` loop of `deduplicate_results` (`functions.py` lines
343-348): draw random filenames until `top_n` entries are collected.  `fuel`
bounds the number of iterations modelled; `none` means the loop was still
running when the fuel ran out.  `k` indexes the stream of random draws. -/
def padLoop (base : String) (table : List TableRow) (picks : Nat → Nat)
    (top_n : Nat) :
    Nat → Nat → List String → List String → List String →
      Option (List String × List String)
  | 0, _, ctxs, fns, _ =>
    if fns.length < top_n then none else some (ctxs, fns)
  | fuel + 1, k, ctxs, fns, seen =>
    if fns.length < top_n then
      match get_random_filename base table (picks k) with
      | some rf =>
        if rf ≠ "" ∧ rf ∉ seen then
          padLoop base table picks top_n fuel (k + 1)
            (ctxs ++ ["No additional unique content available"]) (fns ++ [rf]) (seen ++ [rf])
        else padLoop base table picks top_n fuel (k + 1) ctxs fns seen
      | none => padLoop base table picks top_n fuel (k + 1) ctxs fns seen
    else some (ctxs, fns)

/-- Model of `deduplicate_results` (`functions.py` lines 326-350).  The ClickHouse
client argument becomes `(base, table, picks)`; `fuel` bounds the backfill
loop as in `padLoop`. -/
def deduplicate_results (base : String) (table : List TableRow) (picks : Nat → Nat)
    (closest_chunks : List (String × String)) (top_n : Nat) (fuel : Nat) :
    Option (List String × List String) :=
  if closest_chunks.isEmpty then
    some (List.replicate top_n "No content available",
          List.replicate top_n "No file available")
  else
    let s := firstPass top_n closest_chunks [] [] []
    (padLoop base table picks top_n fuel 0 s.1 s.2.1 s.2.2).map fun p =>
      (p.1.take top_n, p.2.take top_n)

/-- The uniqueness-padding `while` loop of `process_query_clickhouse_pdf`
(`functions.py` lines 454-457), fuelled like `padLoop`. -/
def uniqLoop (base : String) (table : List TableRow) (picks : Nat → Nat)
    (top_n : Nat) : Nat → Nat → List String → Option (List String)
  | 0, _, ufs => if ufs.length < top_n then none else some ufs
  | fuel + 1, k, ufs =>
    if ufs.length < top_n then
      match get_random_filename base table (picks k) with
      | some rf =>
        if rf ≠ "" ∧ rf ∉ ufs then uniqLoop base table picks top_n fuel (k + 1) (ufs ++ [rf])
        else uniqLoop base table picks top_n fuel (k + 1) ufs
      | none => uniqLoop base table picks top_n fuel (k + 1) ufs
    else some ufs

/-- The per-filename description step of `process_query_clickhouse_pdf`
(`functions.py` lines 460-465). -/
def descFor (db : Db) (fn : String) : String :=
  if hasSubstr "No additional unique file".data fn.data then
    "No additional unique description available"
  else get_pdf_description db fn

/-- The result-assembly tail of `process_query_clickhouse_pdf`
(`functions.py` lines 447-478), taking the retrieval stage's candidate list
`closest_chunks` as input (embedding generation and the multi-stage query are
the external collaborators producing it — line 445).  Mirrors the hard-coded
`top_n=5` of the `deduplicate_results` call on line 448. -/
def process_query_clickhouse_pdf_assemble (db : Db) (base : String)
    (picks1 picks2 : Nat → Nat) (closest_chunks : List (String × String))
    (top_n : Nat) (fuel : Nat) :
    Option (List String × List String × List String) :=
  if closest_chunks.isEmpty then
    some (List.replicate top_n "No content available",
          List.replicate top_n "No file available",
          List.replicate top_n "No description available")
  else
    match deduplicate_results base db.table picks1 closest_chunks 5 fuel with
    | none => none
    | some (full_contexts, pdf_filenames) =>
      match uniqLoop base db.table picks2 top_n fuel 0 (firstDedup pdf_filenames) with
      | none => none
      | some unique_filenames =>
        some (full_contexts.take top_n,
              unique_filenames.take top_n,
              (unique_filenames.map (descFor db)).take top_n)

/-- A one-document corpus whose sole filename resolves to `https://a/f`:
the failing input of claim C2. -/
def c2Table : List TableRow := [⟨"1", "f.pdf"⟩]

/-- The documents used by the C1 witness. -/
def w1Table : List TableRow :=
  [⟨"1", "a"⟩, ⟨"2", "b"⟩, ⟨"3", "c"⟩, ⟨"4", "d"⟩, ⟨"5", "e"⟩]

/-- The documents used by the C10 witness. -/
def w2Table : List TableRow :=
  [⟨"1", "a"⟩, ⟨"2", "b"⟩, ⟨"3", "c"⟩, ⟨"4", "d"⟩, ⟨"5", "e"⟩, ⟨"6", "f"⟩, ⟨"7", "g"⟩]

/-- A document with chunks `0..20`, for the C5 example. -/
def exampleChunks : List ChunkRow :=
  (List.range 21).map fun i => ⟨(i : Int), "d", "c" ++ toString i⟩

/-- A 251-character chunk text, for the C9 witness. -/
def c9Long : String := String.mk (List.replicate 251 'x')

/-- A one-document store whose document has one long chunk, for the C9
witness. -/
def c9Db : Db := ⟨[⟨"1", "doc.pdf"⟩], [⟨0, "1", c9Long⟩]⟩

theorem leadsWith_iff (w t : List Char) : leadsWith w t = true ↔ ∃ r, t = w ++ r := by
  induction w generalizing t with
  | nil => simp [leadsWith]
  | cons a w ih =>
    cases t with
    | nil => simp [leadsWith]
    | cons b t =>
      simp only [leadsWith, Bool.and_eq_true, decide_eq_true_eq, List.cons_append, ih]
      constructor
      · rintro ⟨rfl, r, rfl⟩; exact ⟨r, rfl⟩
      · rintro ⟨r, h⟩; cases h; exact ⟨rfl, r, rfl⟩

theorem leadsWith_self_append (w r : List Char) : leadsWith w (w ++ r) = true :=
  (leadsWith_iff w (w ++ r)).2 ⟨r, rfl⟩

theorem leadsWith_decompose {w t : List Char} (h : leadsWith w t = true) :
    t = w ++ t.drop w.length := by
  obtain ⟨r, rfl⟩ := (leadsWith_iff w t).1 h
  rw [List.drop_left]

theorem subsAfterExact_of_leadsWith {w t : List Char} (h : leadsWith w t = true) :
    subsAfterExact w t = some (t.drop w.length) := by
  cases t with
  | nil => simp [subsAfterExact, h]
  | cons c t => simp [subsAfterExact, h]

theorem subsAfterExact_cons_of_not {w : List Char} {c : Char} {t : List Char}
    (h : leadsWith w (c :: t) = false) :
    subsAfterExact w (c :: t) = subsAfterExact w t := by
  simp [subsAfterExact, h]

/-- If two append decompositions agree and the second tail is no longer than
the first, the second tail is a tail of the first. -/
theorem tail_of_append_eq_append {α : Type} {x r y rest : List α}
    (h : x ++ r = y ++ rest) (hle : rest.length ≤ r.length) : ∃ b, r = b ++ rest := by
  rcases List.append_eq_append_iff.1 h with ⟨a', _, ha2⟩ | ⟨c', _, hc2⟩
  · exact ⟨a', ha2⟩
  · have hlen : rest.length = c'.length + r.length := by
      rw [hc2, List.length_append]
    have hc0 : c'.length = 0 := by omega
    have : c' = [] := List.length_eq_zero.1 hc0
    subst this
    exact ⟨[], by simpa using hc2.symm⟩

theorem subsAfterExact_sound {w : List Char} :
    ∀ {t r : List Char}, subsAfterExact w t = some r → ∃ a, t = a ++ w ++ r := by
  intro t
  induction t with
  | nil =>
    intro r h
    cases w with
    | nil =>
      simp only [subsAfterExact, leadsWith, if_pos, List.drop_nil, Option.some.injEq] at h
      exact ⟨[], by simp [← h]⟩
    | cons x w' => simp [subsAfterExact, leadsWith] at h
  | cons c t ih =>
    intro r h
    by_cases hw : leadsWith w (c :: t) = true
    · rw [subsAfterExact_of_leadsWith hw] at h
      obtain ⟨rfl⟩ := Option.some.inj h
      exact ⟨[], by simpa using leadsWith_decompose hw⟩
    · rw [subsAfterExact_cons_of_not (by simpa using hw)] at h
      obtain ⟨a, ha⟩ := ih h
      exact ⟨c :: a, by simp [ha]⟩

theorem subsAfterExact_complete {w : List Char} :
    ∀ (a rest : List Char), ∃ r b,
      subsAfterExact w (a ++ w ++ rest) = some r ∧ r = b ++ rest := by
  intro a
  induction a with
  | nil =>
    intro rest
    refine ⟨rest, [], ?_, rfl⟩
    rw [List.nil_append, subsAfterExact_of_leadsWith (leadsWith_self_append w rest),
      List.drop_left]
  | cons c a ih =>
    intro rest
    by_cases hw : leadsWith w (c :: a ++ w ++ rest) = true
    · set r := (c :: a ++ w ++ rest).drop w.length with hr
      have hdec : c :: a ++ w ++ rest = w ++ r := leadsWith_decompose hw
      have heq : w ++ r = (c :: a ++ w) ++ rest := by
        rw [← hdec]
      have hle : rest.length ≤ r.length := by
        have := congrArg List.length heq
        simp only [List.length_append] at this
        omega
      obtain ⟨b, hb⟩ := tail_of_append_eq_append heq hle
      exact ⟨r, b, subsAfterExact_of_leadsWith hw, hb⟩
    · obtain ⟨r, b, hrec, hb⟩ := ih rest
      refine ⟨r, b, ?_, hb⟩
      have hcons : (c :: a) ++ w ++ rest = c :: (a ++ w ++ rest) := by simp
      rw [hcons, subsAfterExact_cons_of_not (by simpa [hcons] using hw)]
      exact hrec

theorem dropThroughFirst_of_not_hasSubstr {w t : List Char}
    (h : hasSubstr w t = false) : dropThroughFirst w t = t := by
  unfold dropThroughFirst
  unfold hasSubstr at h
  cases hs : subsAfterExact w t with
  | none => rfl
  | some r => rw [hs] at h; simp at h

theorem dropThroughFirst_self_append (w r : List Char) :
    dropThroughFirst w (w ++ r) = r := by
  unfold dropThroughFirst
  rw [subsAfterExact_of_leadsWith (leadsWith_self_append w r), List.drop_left]

theorem occursInOrder_mono {b : List Char} :
    ∀ {ws : List (List Char)} {t : List Char},
      occursInOrder ws t = true → occursInOrder ws (b ++ t) = true := by
  intro ws
  induction ws generalizing b with
  | nil => intro t _; rfl
  | cons w ws ih =>
    intro t h
    simp only [occursInOrder] at h ⊢
    cases hs : subsAfterExact w t with
    | none => rw [hs] at h; exact absurd h (by simp)
    | some r =>
      rw [hs] at h
      obtain ⟨a, ha⟩ := subsAfterExact_sound hs
      have : b ++ t = (b ++ a) ++ w ++ r := by simp [ha]
      obtain ⟨r2, d, hr2, hd⟩ := @subsAfterExact_complete w (b ++ a) r
      rw [← this] at hr2
      rw [hr2]
      subst hd
      exact ih h

theorem occursInOrder_iff_orderedSub :
    ∀ (ws : List (List Char)) (t : List Char),
      occursInOrder ws t = true ↔ OrderedOccurs ws t := by
  intro ws
  induction ws with
  | nil =>
    intro t
    constructor
    · intro _; exact OrderedOccurs.nil t
    · intro _; rfl
  | cons w ws ih =>
    intro t
    constructor
    · intro h
      simp only [occursInOrder] at h
      cases hs : subsAfterExact w t with
      | none => rw [hs] at h; exact absurd h (by simp)
      | some r =>
        rw [hs] at h
        obtain ⟨a, ha⟩ := subsAfterExact_sound hs
        rw [ha, List.append_assoc]
        exact OrderedOccurs.cons w ws a r ((ih r).1 h)
    · intro h
      cases h with
      | cons _ _ a rest hrest =>
        simp only [occursInOrder]
        have hsplit : a ++ (w ++ rest) = a ++ w ++ rest := by simp
        obtain ⟨r, b, hr, hb⟩ := @subsAfterExact_complete w a rest
        rw [hsplit, hr]
        subst hb
        exact occursInOrder_mono ((ih rest).2 hrest)

theorem likeLeads_eq_leadsWith {w : List Char} (hw : '_' ∉ w) :
    ∀ t, likeLeads w t = leadsWith w t := by
  induction w with
  | nil => intro t; rfl
  | cons p w ih =>
    intro t
    cases t with
    | nil => rfl
    | cons c t =>
      have hp : p ≠ '_' := fun h => hw (h ▸ List.mem_cons_self p w)
      have hw' : '_' ∉ w := fun h => hw (List.mem_cons_of_mem p h)
      simp only [likeLeads, leadsWith, charLikeMatch, ih hw']
      have : (p = '_' : Bool) = false := by
        simp [hp]
      rw [this, Bool.false_or]

theorem subsAfterLike_eq_exact {w : List Char} (hw : '_' ∉ w) :
    ∀ t, subsAfterLike w t = subsAfterExact w t := by
  intro t
  induction t with
  | nil => simp only [subsAfterLike, subsAfterExact, likeLeads_eq_leadsWith hw]
  | cons c t ih => simp only [subsAfterLike, subsAfterExact, likeLeads_eq_leadsWith hw, ih]

theorem likeMatches_eq_occursInOrder :
    ∀ {ws : List (List Char)}, (∀ w ∈ ws, '_' ∉ w) →
      ∀ t, likeMatches ws t = occursInOrder ws t := by
  intro ws
  induction ws with
  | nil => intro _ t; rfl
  | cons w ws ih =>
    intro h t
    have hw : '_' ∉ w := h w (List.mem_cons_self w ws)
    have hws : ∀ w' ∈ ws, '_' ∉ w' := fun w' hm => h w' (List.mem_cons_of_mem w hm)
    simp only [likeMatches, occursInOrder, subsAfterLike_eq_exact hw]
    cases subsAfterExact w t with
    | none => rfl
    | some r => exact ih hws r

theorem padLoop_lengths {base : String} {table : List TableRow} {picks : Nat → Nat}
    {top_n : Nat} :
    ∀ (fuel k : Nat) (ctxs fns seen cs fs : List String),
      ctxs.length = fns.length → fns.length ≤ top_n →
      padLoop base table picks top_n fuel k ctxs fns seen = some (cs, fs) →
      cs.length = top_n ∧ fs.length = top_n := by
  intro fuel
  induction fuel with
  | zero =>
    intro k ctxs fns seen cs fs hlen hle h
    simp only [padLoop] at h
    split at h
    · exact absurd h (by simp)
    · rename_i hge
      simp only [Option.some.injEq, Prod.mk.injEq] at h
      obtain ⟨rfl, rfl⟩ := h
      omega
  | succ fuel ih =>
    intro k ctxs fns seen cs fs hlen hle h
    simp only [padLoop] at h
    split at h
    · rename_i hlt
      cases hg : get_random_filename base table (picks k) with
      | some rf =>
        rw [hg] at h
        simp only at h
        split at h
        · exact ih (k + 1) _ _ _ cs fs (by simp [hlen]) (by simp only [List.length_append, List.length_cons, List.length_nil]; omega) h
        · exact ih (k + 1) _ _ _ cs fs hlen hle h
      | none =>
        rw [hg] at h
        exact ih (k + 1) _ _ _ cs fs hlen hle h
    · rename_i hge
      simp only [Option.some.injEq, Prod.mk.injEq] at h
      obtain ⟨rfl, rfl⟩ := h
      omega

theorem padLoop_append {base : String} {table : List TableRow} {picks : Nat → Nat}
    {top_n : Nat} :
    ∀ (fuel k : Nat) (ctxs fns seen cs fs : List String),
      padLoop base table picks top_n fuel k ctxs fns seen = some (cs, fs) →
      ∃ cp fp, cs = ctxs ++ cp ∧ fs = fns ++ fp := by
  intro fuel
  induction fuel with
  | zero =>
    intro k ctxs fns seen cs fs h
    simp only [padLoop] at h
    split at h
    · exact absurd h (by simp)
    · simp only [Option.some.injEq, Prod.mk.injEq] at h
      obtain ⟨rfl, rfl⟩ := h
      exact ⟨[], [], by simp, by simp⟩
  | succ fuel ih =>
    intro k ctxs fns seen cs fs h
    simp only [padLoop] at h
    split at h
    · cases hg : get_random_filename base table (picks k) with
      | some rf =>
        rw [hg] at h
        simp only at h
        split at h
        · obtain ⟨cp, fp, hc, hf⟩ := ih (k + 1) _ _ _ cs fs h
          exact ⟨"No additional unique content available" :: cp, rf :: fp,
            by simp [hc], by simp [hf]⟩
        · exact ih (k + 1) _ _ _ cs fs h
      | none =>
        rw [hg] at h
        exact ih (k + 1) _ _ _ cs fs h
    · simp only [Option.some.injEq, Prod.mk.injEq] at h
      obtain ⟨rfl, rfl⟩ := h
      exact ⟨[], [], by simp, by simp⟩

theorem padLoop_nodup {base : String} {table : List TableRow} {picks : Nat → Nat}
    {top_n : Nat} :
    ∀ (fuel k : Nat) (ctxs fns cs fs : List String),
      padLoop base table picks top_n fuel k ctxs fns fns = some (cs, fs) →
      fns.Nodup → fs.Nodup := by
  intro fuel
  induction fuel with
  | zero =>
    intro k ctxs fns cs fs h hnd
    simp only [padLoop] at h
    split at h
    · exact absurd h (by simp)
    · simp only [Option.some.injEq, Prod.mk.injEq] at h
      obtain ⟨rfl, rfl⟩ := h
      exact hnd
  | succ fuel ih =>
    intro k ctxs fns cs fs h hnd
    simp only [padLoop] at h
    split at h
    · cases hg : get_random_filename base table (picks k) with
      | some rf =>
        rw [hg] at h
        simp only at h
        split at h
        · rename_i hcond
          refine ih (k + 1) _ _ cs fs h ?_
          simp only [List.nodup_append, List.nodup_cons, List.not_mem_nil,
            not_false_eq_true, List.nodup_nil, and_true, List.disjoint_singleton]
          exact ⟨hnd, trivial, hcond.2⟩
        · exact ih (k + 1) _ _ cs fs h hnd
      | none =>
        rw [hg] at h
        exact ih (k + 1) _ _ cs fs h hnd
    · simp only [Option.some.injEq, Prod.mk.injEq] at h
      obtain ⟨rfl, rfl⟩ := h
      exact hnd

theorem firstPass_spec {top_n : Nat} :
    ∀ (l : List (String × String)) (ctxs fns : List String),
      ctxs.length = fns.length →
      (firstPass top_n l ctxs fns fns).2.2 = (firstPass top_n l ctxs fns fns).2.1
      ∧ (firstPass top_n l ctxs fns fns).1.length = (firstPass top_n l ctxs fns fns).2.1.length
      ∧ (firstPass top_n l ctxs fns fns).2.1
          = fns ++ (firstDedupFrom fns (l.map Prod.snd)).take (top_n - fns.length)
      ∧ (fns.Nodup → (firstPass top_n l ctxs fns fns).2.1.Nodup) := by
  intro l
  induction l with
  | nil =>
    intro ctxs fns hlen
    exact ⟨rfl, hlen, by simp [firstPass, firstDedupFrom], fun h => h⟩
  | cons p rest ih =>
    obtain ⟨c, u⟩ := p
    intro ctxs fns hlen
    by_cases hfull : top_n ≤ ctxs.length
    · have hfull2 : top_n ≤ fns.length := by omega
      have h0 : top_n - fns.length = 0 := by omega
      simp [firstPass, hfull2, h0, hlen]
    · by_cases hmem : u ∈ fns
      · simp only [firstPass, if_neg hfull, if_pos hmem]
        have hrec := ih ctxs fns hlen
        simpa [firstDedupFrom, hmem] using hrec
      · simp only [firstPass, if_neg hfull, if_neg hmem]
        have hlen' : (ctxs ++ [c]).length = (fns ++ [u]).length := by simp [hlen]
        obtain ⟨h1, h2, h3, h4⟩ := ih (ctxs ++ [c]) (fns ++ [u]) hlen'
        refine ⟨h1, h2, ?_, ?_⟩
        · rw [h3]
          simp only [List.map_cons, firstDedupFrom, if_neg hmem]
          rw [show top_n - fns.length = (top_n - (fns ++ [u]).length) + 1 by
            simp only [List.length_append, List.length_cons, List.length_nil]; omega]
          simp [List.take_succ_cons, List.append_assoc]
        · intro hnd
          refine h4 ?_
          simp only [List.nodup_append, List.nodup_cons, List.not_mem_nil,
            not_false_eq_true, List.nodup_nil, and_true, List.disjoint_singleton]
          exact ⟨hnd, trivial, hmem⟩

theorem firstDedupFrom_length_le :
    ∀ (l : List String) (seen : List String),
      (firstDedupFrom seen l).length ≤ l.length := by
  intro l
  induction l with
  | nil => intro seen; simp [firstDedupFrom]
  | cons u rest ih =>
    intro seen
    simp only [firstDedupFrom]
    split
    · exact Nat.le_succ_of_le (ih seen)
    · simpa using Nat.succ_le_succ (ih (seen ++ [u]))

/-- Everything claim C1 needs about a terminating run of
`deduplicate_results`: exact lengths, leading first-occurrence block, and
distinctness when the candidate list is non-empty. -/
theorem dedup_some_spec {base : String} {table : List TableRow} {picks : Nat → Nat}
    {cands : List (String × String)} {top_n fuel : Nat} {cs fs : List String}
    (h : deduplicate_results base table picks cands top_n fuel = some (cs, fs)) :
    cs.length = top_n ∧ fs.length = top_n
    ∧ (∃ pad, fs = (firstDedup (cands.map Prod.snd)).take top_n ++ pad)
    ∧ (cands ≠ [] → fs.Nodup) := by
  cases cands with
  | nil =>
    simp only [deduplicate_results, List.isEmpty_nil, if_true, Option.some.injEq,
      Prod.mk.injEq] at h
    obtain ⟨rfl, rfl⟩ := h
    refine ⟨by simp, by simp, ⟨List.replicate top_n "No file available", ?_⟩,
      fun hne => absurd rfl hne⟩
    simp [firstDedup, firstDedupFrom]
  | cons x l =>
    have hunfold : deduplicate_results base table picks (x :: l) top_n fuel
        = (padLoop base table picks top_n fuel 0 (firstPass top_n (x :: l) [] [] []).1
            (firstPass top_n (x :: l) [] [] []).2.1
            (firstPass top_n (x :: l) [] [] []).2.2).map
            (fun p => (p.1.take top_n, p.2.take top_n)) := rfl
    rw [hunfold] at h
    cases hp : padLoop base table picks top_n fuel 0 (firstPass top_n (x :: l) [] [] []).1
        (firstPass top_n (x :: l) [] [] []).2.1 (firstPass top_n (x :: l) [] [] []).2.2 with
    | none => rw [hp] at h; exact absurd h (by simp)
    | some p =>
      rw [hp] at h
      obtain ⟨c0, f0⟩ := p
      simp only [Option.map_some', Option.some.injEq, Prod.mk.injEq] at h
      obtain ⟨hcs, hfs⟩ := h
      obtain ⟨hseen, hlens, hform, hnd⟩ := @firstPass_spec top_n (x :: l) [] [] rfl
      rw [hseen] at hp
      have hle : (firstPass top_n (x :: l) [] [] []).2.1.length ≤ top_n := by
        rw [hform]
        simp only [List.nil_append, List.length_take, Nat.sub_zero, List.length_nil]
        omega
      obtain ⟨hclen, hflen⟩ := padLoop_lengths fuel 0 _ _ _ c0 f0 hlens hle hp
      obtain ⟨cp, fp, hcp, hfp⟩ := padLoop_append fuel 0 _ _ _ c0 f0 hp
      have hf0nd : f0.Nodup := padLoop_nodup fuel 0 _ _ c0 f0 hp (hnd List.nodup_nil)
      subst hcs
      subst hfs
      have hf0take : f0.take top_n = f0 := by rw [← hflen, List.take_length]
      refine ⟨by simp [List.length_take, hclen], by simp [List.length_take, hflen],
        ⟨fp, ?_⟩, fun _ => ?_⟩
      · rw [hf0take, hfp, hform]
        simp [firstDedup]
      · rw [hf0take]
        exact hf0nd

theorem uniqLoop_lengths {base : String} {table : List TableRow} {picks : Nat → Nat}
    {top_n : Nat} :
    ∀ (fuel k : Nat) (ufs out : List String),
      ufs.length ≤ top_n →
      uniqLoop base table picks top_n fuel k ufs = some out →
      out.length = top_n := by
  intro fuel
  induction fuel with
  | zero =>
    intro k ufs out hle h
    simp only [uniqLoop] at h
    split at h
    · exact absurd h (by simp)
    · rename_i hge
      obtain ⟨rfl⟩ := Option.some.inj h
      omega
  | succ fuel ih =>
    intro k ufs out hle h
    simp only [uniqLoop] at h
    split at h
    · rename_i hlt
      cases hg : get_random_filename base table (picks k) with
      | some rf =>
        rw [hg] at h
        simp only at h
        split at h
        · exact ih (k + 1) _ out
            (by simp only [List.length_append, List.length_cons, List.length_nil]; omega) h
        · exact ih (k + 1) _ out hle h
      | none =>
        rw [hg] at h
        exact ih (k + 1) _ out hle h
    · rename_i hge
      obtain ⟨rfl⟩ := Option.some.inj h
      omega

theorem singleton_table_get (row : TableRow) (i : Fin ([row] : List TableRow).length) :
    ([row] : List TableRow).get i = row := by
  match i with
  | ⟨0, _⟩ => rfl
  | ⟨n + 1, h⟩ => exact absurd h (by simp)

theorem get_random_filename_singleton (base : String) (row : TableRow) (n : Nat) :
    get_random_filename base [row] n = some (filenameToUrl base row.original_filename) := by
  unfold get_random_filename
  rw [dif_neg (by simp)]
  rw [singleton_table_get row]

theorem padLoop_c2_stuck (picks : Nat → Nat) :
    ∀ (fuel k : Nat),
      padLoop "https://a/" c2Table picks 5 fuel k
        ["ctx"] ["https://a/f"] ["https://a/f"] = none := by
  intro fuel
  induction fuel with
  | zero => intro k; rfl
  | succ fuel ih =>
    intro k
    have hrand : get_random_filename "https://a/" c2Table (picks k) = some "https://a/f" :=
      get_random_filename_singleton "https://a/" ⟨"1", "f.pdf"⟩ (picks k)
    have hstep : padLoop "https://a/" c2Table picks 5 (fuel + 1) k
        ["ctx"] ["https://a/f"] ["https://a/f"]
        = padLoop "https://a/" c2Table picks 5 fuel (k + 1)
            ["ctx"] ["https://a/f"] ["https://a/f"] := by
      simp only [padLoop]
      rw [if_pos (by decide)]
      simp only [hrand]
      rw [if_neg (by simp)]
    rw [hstep]
    exact ih (k + 1)

/-- C1: `deduplicate_results` (dedupe_and_pad), whenever it returns a result
(for any corpus, random stream, candidate list, `top_n` and fuel), returns
exactly `top_n` contexts and `top_n` urls; the url list begins with the first
occurrences of the distinct candidate urls in input order (truncated at
`top_n`), and the urls are pairwise distinct whenever the candidate list is
non-empty (on an empty candidate list all entries are the repeated filler
sentinel, so distinctness holds among non-filler entries vacuously). -/
theorem claim_C1_dedupe_and_pad (base : String) (table : List TableRow)
    (picks : Nat → Nat) (cands : List (String × String)) (top_n fuel : Nat)
    (cs fs : List String)
    (h : deduplicate_results base table picks cands top_n fuel = some (cs, fs)) :
    cs.length = top_n ∧ fs.length = top_n
    ∧ (∃ pad, fs = (firstDedup (cands.map Prod.snd)).take top_n ++ pad)
    ∧ (cands ≠ [] → fs.Nodup) :=
  dedup_some_spec h

/-- C1 witness: the theorem applied to a concrete five-document corpus and a
three-candidate list containing one duplicate url. -/
theorem claim_C1_dedupe_and_pad_witness :
    deduplicate_results "" w1Table (fun k => k)
        [("c1", "a"), ("c2", "a"), ("c3", "b")] 3 10
      = some (["c1", "c3", "No additional unique content available"], ["a", "b", "c"])
    ∧ (["c1", "c3", "No additional unique content available"] : List String).length = 3
    ∧ (["a", "b", "c"] : List String).length = 3
    ∧ (∃ pad, ["a", "b", "c"]
        = (firstDedup ([("c1", "a"), ("c2", "a"), ("c3", "b")].map Prod.snd)).take 3 ++ pad)
    ∧ ([("c1", "a"), ("c2", "a"), ("c3", "b")] ≠ ([] : List (String × String))
        → (["a", "b", "c"] : List String).Nodup) := by
  have h := claim_C1_dedupe_and_pad "" w1Table (fun k => k)
    [("c1", "a"), ("c2", "a"), ("c3", "b")] 3 10
    ["c1", "c3", "No additional unique content available"] ["a", "b", "c"] rfl
  exact ⟨rfl, h.1, h.2.1, h.2.2.1, h.2.2.2⟩

/-- C2: against the claimed termination, on a one-document corpus whose only
url already occurs among the candidates, the backfill loop of
`deduplicate_results` runs forever: for every random stream and every fuel
bound the call is still looping (`none`), instead of returning the short
result set the specification promises. -/
theorem claim_C2_backfill_diverges (picks : Nat → Nat) (fuel : Nat) :
    deduplicate_results "https://a/" c2Table picks [("ctx", "https://a/f")] 5 fuel
      = none := by
  have hunfold : deduplicate_results "https://a/" c2Table picks
      [("ctx", "https://a/f")] 5 fuel
      = (padLoop "https://a/" c2Table picks 5 fuel 0
          ["ctx"] ["https://a/f"] ["https://a/f"]).map
          (fun p => (p.1.take 5, p.2.take 5)) := rfl
  rw [hunfold, padLoop_c2_stuck picks fuel 0]
  rfl

/-- C8: `deduplicate_results` on an empty candidate list returns, for every
`top_n` (in particular 5) and regardless of corpus, stream and fuel, exactly
`top_n` filler entries carrying the "no content" sentinel as context and the
distinct "no file" sentinel as url — never an empty or null result. -/
theorem claim_C8_empty_candidates (base : String) (table : List TableRow)
    (picks : Nat → Nat) (top_n fuel : Nat) :
    deduplicate_results base table picks [] top_n fuel
      = some (List.replicate top_n "No content available",
              List.replicate top_n "No file available")
    ∧ "No content available" ≠ "No file available" :=
  ⟨rfl, by decide⟩

/-- C10: `process_query_clickhouse_pdf` calls `deduplicate_results` with a
hard-coded `top_n = 5`, so whenever the caller's `top_n` exceeds 5 and the
retrieval stage produced candidates, the returned contexts list has at most 5
entries while the filename and description lists are padded up to `top_n` —
the three lists have unequal lengths. -/
theorem claim_C10_hardcoded_top5 (db : Db) (base : String)
    (picks1 picks2 : Nat → Nat) (cands : List (String × String)) (top_n fuel : Nat)
    (cs fs ds : List String) (htop : 5 < top_n) (hne : cands ≠ [])
    (h : process_query_clickhouse_pdf_assemble db base picks1 picks2 cands top_n fuel
          = some (cs, fs, ds)) :
    cs.length ≤ 5 ∧ fs.length = top_n ∧ ds.length = top_n ∧ cs.length < fs.length := by
  cases cands with
  | nil => exact absurd rfl hne
  | cons x l =>
    have hunfold : process_query_clickhouse_pdf_assemble db base picks1 picks2
        (x :: l) top_n fuel
        = match deduplicate_results base db.table picks1 (x :: l) 5 fuel with
          | none => none
          | some (full_contexts, pdf_filenames) =>
            match uniqLoop base db.table picks2 top_n fuel 0 (firstDedup pdf_filenames) with
            | none => none
            | some unique_filenames =>
              some (full_contexts.take top_n, unique_filenames.take top_n,
                    (unique_filenames.map (descFor db)).take top_n) := rfl
    rw [hunfold] at h
    cases hd : deduplicate_results base db.table picks1 (x :: l) 5 fuel with
    | none => rw [hd] at h; exact absurd h (by simp)
    | some p =>
      obtain ⟨c0, f0⟩ := p
      rw [hd] at h
      dsimp only at h
      obtain ⟨hc0len, hf0len, -, -⟩ := dedup_some_spec hd
      cases hu : uniqLoop base db.table picks2 top_n fuel 0 (firstDedup f0) with
      | none => rw [hu] at h; exact absurd h (by simp)
      | some ufs =>
        rw [hu] at h
        dsimp only at h
        simp only [Option.some.injEq, Prod.mk.injEq] at h
        obtain ⟨hcs, hfs, hds⟩ := h
        have h1 : (firstDedup f0).length ≤ f0.length := firstDedupFrom_length_le f0 []
        have hfdle : (firstDedup f0).length ≤ top_n := by omega
        have huflen : ufs.length = top_n := uniqLoop_lengths fuel 0 _ ufs hfdle hu
        subst hcs
        subst hfs
        subst hds
        refine ⟨?_, ?_, ?_, ?_⟩
        · rw [List.length_take, hc0len]
          exact Nat.min_le_right top_n 5
        · rw [List.length_take, huflen]
          exact Nat.min_self top_n
        · rw [List.length_take, List.length_map, huflen]
          exact Nat.min_self top_n
        · rw [List.length_take, List.length_take, hc0len, huflen, Nat.min_self,
            Nat.min_comm, Nat.min_eq_left (Nat.le_of_lt htop)]
          exact htop

/-- C10 witness: the theorem applied to a seven-document corpus, caller
`top_n = 6`, and one candidate: 5 contexts versus 6 filenames and 6
descriptions. -/
theorem claim_C10_hardcoded_top5_witness :
    (5 < 6 ∧ ([("c1", "a")] : List (String × String)) ≠ [])
    ∧ ((["c1", "No additional unique content available",
          "No additional unique content available",
          "No additional unique content available",
          "No additional unique content available"] : List String).length ≤ 5
       ∧ (["a", "b", "c", "d", "e", "f"] : List String).length = 6
       ∧ (List.replicate 6 "File not found.").length = 6
       ∧ (["c1", "No additional unique content available",
            "No additional unique content available",
            "No additional unique content available",
            "No additional unique content available"] : List String).length
          < (["a", "b", "c", "d", "e", "f"] : List String).length) := by
  refine ⟨⟨by decide, by decide⟩, ?_⟩
  exact claim_C10_hardcoded_top5 ⟨w2Table, []⟩ "" (fun k => k) (fun k => k)
    [("c1", "a")] 6 20
    ["c1", "No additional unique content available",
      "No additional unique content available",
      "No additional unique content available",
      "No additional unique content available"]
    ["a", "b", "c", "d", "e", "f"]
    (List.replicate 6 "File not found.")
    (by decide) (by decide) (by decide)

/-- C3 (amended): provided no important word contains an underscore (in SQL
LIKE `_` is a single-character wildcard) and the words are lowercase (as
`extract_important_words` produces them), Stage 1 of
`query_clickhouse_word_with_multi_stage` matches a chunk iff the chunk's
lowercased text contains all the important words in the given order,
contiguously separated by arbitrary text; in particular with
`["rent", "control"]` a chunk containing the ordered pattern matches and a
chunk with "control" before "rent" does not. -/
theorem claim_C3_stage1_keyword :
    (∀ (ws : List String) (t : String),
      (∀ w ∈ ws, '_' ∉ w.data ∧ lowerL w.data = w.data) →
      (stage1Match ws t = true ↔ OrderedOccurs (ws.map (·.data)) (lowerL t.data)))
    ∧ stage1Match ["rent", "control"] "New RENT is under Control here" = true
    ∧ stage1Match ["rent", "control"] "control of the rent" = false := by
  refine ⟨?_, by decide, by decide⟩
  intro ws t h
  have hmap : ws.map (fun w => lowerL w.data) = ws.map (fun w => w.data) :=
    List.map_congr_left fun w hw => (h w hw).2
  have hnd : ∀ v ∈ ws.map (fun w => w.data), '_' ∉ v := by
    intro v hv
    obtain ⟨w, hw, rfl⟩ := List.mem_map.1 hv
    exact (h w hw).1
  unfold stage1Match
  rw [hmap, likeMatches_eq_occursInOrder hnd (lowerL t.data)]
  exact occursInOrder_iff_orderedSub _ _

/-- C3 witness: the amended iff applied to the lowercase underscore-free
words `["ab", "cd"]` and the chunk `"zzabzcdz"`. -/
theorem claim_C3_stage1_keyword_witness :
    (∀ w ∈ (["ab", "cd"] : List String), '_' ∉ w.data ∧ lowerL w.data = w.data)
    ∧ (stage1Match ["ab", "cd"] "zzabzcdz" = true
        ↔ OrderedOccurs ((["ab", "cd"] : List String).map (·.data))
            (lowerL "zzabzcdz".data)) :=
  ⟨by decide, claim_C3_stage1_keyword.1 ["ab", "cd"] "zzabzcdz" (by decide)⟩

/-- C3 counterexample: with important word `"a_b"` (which
`extract_important_words` extracts verbatim, `\w` covering the underscore),
the chunk `"axb"` matches Stage 1 although its lowercased text does not
contain the word `"a_b"` at all — the claimed iff fails because the
underscore is a LIKE wildcard. -/
theorem claim_C3_counterexample :
    stage1Match ["a_b"] "axb" = true
    ∧ ¬ OrderedOccurs ((["a_b"] : List String).map (fun w => w.data))
        (lowerL "axb".data) := by
  refine ⟨by decide, fun hcon => ?_⟩
  have h2 := (occursInOrder_iff_orderedSub
    ((["a_b"] : List String).map (fun w => w.data)) (lowerL "axb".data)).2 hcon
  rw [show occursInOrder ((["a_b"] : List String).map (fun w => w.data))
      (lowerL "axb".data) = false from by decide] at h2
  exact Bool.false_ne_true h2

/-- C4 (amended): `get_original_filename`'s transformation removes everything
up to and including the *first occurrence anywhere* of `"None"` in the stored
filename (in particular a `"None"` prefix is stripped; when `"None"` does not
occur the filename is kept whole), trims whitespace, strips the extension,
takes the last `/`-segment of the path component of the filename parsed as a
URL — with no percent-decoding — and prepends the base URL. -/
theorem claim_C4_resolve_transform :
    (∀ (base rest : String), hasSubstr noneWord rest.data = false →
        filenameToUrl base ("None" ++ rest) = filenameToUrl base rest)
    ∧ (∀ (base fn : String), hasSubstr noneWord fn.data = false →
        filenameToUrl base fn
          = base ++ String.mk
              (lastSlashSegment (pyUrlparsePath (pySplitextRoot (pyStrip fn.data)))))
    ∧ filenameToUrl "https://a/" "abcNonedef.pdf" = "https://a/def"
    ∧ filenameToUrl "https://a/" "my%20file.pdf" = "https://a/my%20file" := by
  refine ⟨?_, ?_, by decide, by decide⟩
  · intro base rest h
    unfold filenameToUrl
    have hdat : ("None" ++ rest).data = noneWord ++ rest.data := rfl
    rw [hdat, dropThroughFirst_self_append, dropThroughFirst_of_not_hasSubstr h]
  · intro base fn h
    unfold filenameToUrl
    rw [dropThroughFirst_of_not_hasSubstr h]

/-- C4 witness: a `"None"` prefix is stripped before resolution. -/
theorem claim_C4_resolve_transform_witness :
    hasSubstr noneWord "x.pdf".data = false
    ∧ filenameToUrl "https://a/" ("None" ++ "x.pdf") = filenameToUrl "https://a/" "x.pdf" :=
  ⟨by decide, claim_C4_resolve_transform.1 "https://a/" "x.pdf" (by decide)⟩

/-- C4 counterexample: the code differs from the claimed transformation both
on a filename with an inner (non-prefix) `"None"` — which the code removes
together with everything before it — and on a percent-encoded filename, which
the code does not decode. -/
theorem claim_C4_counterexample :
    filenameToUrl "https://a/" "abcNonedef.pdf"
      ≠ claimedResolveTransform "https://a/" "abcNonedef.pdf"
    ∧ filenameToUrl "https://a/" "my%20file.pdf"
      ≠ claimedResolveTransform "https://a/" "my%20file.pdf" :=
  ⟨by decide, by decide⟩

/-- C5: `get_surrounding_chunks` returns exactly the texts of the chunks of
the given document whose id lies in `[id - w, id + w]`, in ascending id order,
joined with single spaces; the empty selection yields the empty string; and
window 2 around chunk 10 of a document with chunks 0..20 yields exactly
chunks 8..12. -/
theorem claim_C5_context_window (chunks : List ChunkRow) (id : Int) (sid : String)
    (w : Int) :
    List.Sorted chunkRowLe (selectedRows chunks id sid w)
    ∧ (selectedRows chunks id sid w).Perm
        (chunks.filter fun r => decide (r.summary_id = sid ∧ id - w ≤ r.id ∧ r.id ≤ id + w))
    ∧ (∀ r, r ∈ selectedRows chunks id sid w
        ↔ r ∈ chunks ∧ r.summary_id = sid ∧ id - w ≤ r.id ∧ r.id ≤ id + w)
    ∧ get_surrounding_chunks chunks id sid w
        = String.intercalate " " ((selectedRows chunks id sid w).map (·.chunk_text))
    ∧ ((chunks.filter
          fun r => decide (r.summary_id = sid ∧ id - w ≤ r.id ∧ r.id ≤ id + w)) = []
        → get_surrounding_chunks chunks id sid w = "")
    ∧ get_surrounding_chunks exampleChunks 10 "d" 2 = "c8 c9 c10 c11 c12" := by
  refine ⟨List.sorted_insertionSort chunkRowLe _, List.perm_insertionSort chunkRowLe _,
    ?_, rfl, ?_, by decide⟩
  · intro r
    simp [selectedRows, List.mem_filter]
  · intro hempty
    unfold get_surrounding_chunks selectedRows
    rw [hempty]
    rfl

/-- C5 witness: the empty-selection case on an empty corpus. -/
theorem claim_C5_context_window_witness :
    (([] : List ChunkRow).filter
        fun r => decide (r.summary_id = "d" ∧ (0 : Int) - 2 ≤ r.id ∧ r.id ≤ 0 + 2)) = []
    ∧ get_surrounding_chunks [] 0 "d" 2 = "" :=
  ⟨rfl, (claim_C5_context_window [] 0 "d" 2).2.2.2.2.1 rfl⟩

/-- C7: `get_original_filename` falls back to `get_random_filename` exactly
on lookup failure; a successful lookup applies `filenameToUrl` to the found
row; `get_random_filename` applies the same `filenameToUrl` transformation to
a corpus row selected by the random draw (every row is selectable) and
returns `none` iff the corpus is empty — so on a non-empty corpus resolution
always produces a url. -/
theorem claim_C7_resolution_fallback (base : String) (table : List TableRow)
    (sid : String) (pick : Nat) :
    ((∀ r ∈ table, r.id ≠ sid) →
        get_original_filename base table sid pick = get_random_filename base table pick)
    ∧ (∀ row, table.find? (fun r => r.id == sid) = some row →
        get_original_filename base table sid pick
          = some (filenameToUrl base row.original_filename))
    ∧ (get_random_filename base table pick = none ↔ table = [])
    ∧ (∀ h : pick < table.length,
        get_random_filename base table pick
          = some (filenameToUrl base (table.get ⟨pick, h⟩).original_filename))
    ∧ (table ≠ [] → ∃ u, get_original_filename base table sid pick = some u) := by
  refine ⟨?_, ?_, ?_, ?_, ?_⟩
  · intro hno
    have hfind : table.find? (fun r => r.id == sid) = none := by
      rw [List.find?_eq_none]
      intro r hr
      simpa using hno r hr
    unfold get_original_filename
    rw [hfind]
  · intro row hrow
    unfold get_original_filename
    rw [hrow]
  · cases table with
    | nil => simp [get_random_filename]
    | cons a t => simp [get_random_filename]
  · intro h
    unfold get_random_filename
    rw [dif_neg (by omega)]
    simp [Nat.mod_eq_of_lt h]
  · intro hne
    unfold get_original_filename
    cases hfind : table.find? (fun r => r.id == sid) with
    | some row => exact ⟨filenameToUrl base row.original_filename, rfl⟩
    | none =>
      cases table with
      | nil => exact absurd rfl hne
      | cons a t =>
        refine ⟨filenameToUrl base
          ((a :: t).get ⟨pick % (a :: t).length, Nat.mod_lt _ (Nat.succ_pos _)⟩).original_filename, ?_⟩
        unfold get_random_filename
        rw [dif_neg (by simp)]

/-- C7 witness: fallback on a lookup miss in a one-document corpus. -/
theorem claim_C7_resolution_fallback_witness :
    (∀ r ∈ ([⟨"1", "f.pdf"⟩] : List TableRow), r.id ≠ "2")
    ∧ get_original_filename "https://a/" [⟨"1", "f.pdf"⟩] "2" 0
        = get_random_filename "https://a/" [⟨"1", "f.pdf"⟩] 0 :=
  ⟨by decide, (claim_C7_resolution_fallback "https://a/" [⟨"1", "f.pdf"⟩] "2" 0).1 (by decide)⟩

/-- C9: whenever the url resolves to a document and that document's
lowest-ordinal chunk is found, `get_pdf_description` returns the first 247
characters followed by the 3-character ellipsis (250 characters in total)
when the chunk text exceeds 250 characters, and the text unchanged
otherwise. -/
theorem claim_C9_description_truncation (db : Db) (url : String) (row : TableRow)
    (c : ChunkRow)
    (hfind : db.table.find? (fun r => r.original_filename == pdfNormalizeFilename url)
      = some row)
    (hchunk : firstChunk db.chunks row.id = some c) :
    (250 < c.chunk_text.data.length →
      get_pdf_description db url = String.mk (c.chunk_text.data.take 247 ++ "...".data)
      ∧ (get_pdf_description db url).data.length = 250)
    ∧ (c.chunk_text.data.length ≤ 250 → get_pdf_description db url = c.chunk_text) := by
  have hdesc : get_pdf_description db url = pyTruncateDescription c.chunk_text := by
    unfold get_pdf_description
    rw [hfind]
    dsimp only
    rw [hchunk]
  constructor
  · intro hlong
    have ht : pyTruncateDescription c.chunk_text
        = String.mk (c.chunk_text.data.take 247 ++ "...".data) := by
      unfold pyTruncateDescription
      rw [if_pos hlong]
    refine ⟨hdesc.trans ht, ?_⟩
    rw [hdesc, ht]
    show (c.chunk_text.data.take 247 ++ "...".data).length = 250
    rw [List.length_append, List.length_take,
      Nat.min_eq_left (by omega : 247 ≤ c.chunk_text.data.length)]
    rfl
  · intro hshort
    rw [hdesc]
    unfold pyTruncateDescription
    rw [if_neg (by omega)]

set_option maxRecDepth 16384 in
/-- C9 witness: truncation of a 251-character first chunk to 250 characters. -/
theorem claim_C9_description_truncation_witness :
    c9Db.table.find? (fun r => r.original_filename == pdfNormalizeFilename "doc.pdf")
      = some ⟨"1", "doc.pdf"⟩
    ∧ firstChunk c9Db.chunks "1" = some ⟨0, "1", c9Long⟩
    ∧ 250 < c9Long.data.length
    ∧ get_pdf_description c9Db "doc.pdf" = String.mk (c9Long.data.take 247 ++ "...".data)
    ∧ (get_pdf_description c9Db "doc.pdf").data.length = 250 := by
  have h := claim_C9_description_truncation c9Db "doc.pdf" ⟨"1", "doc.pdf"⟩
    ⟨0, "1", c9Long⟩ (by decide) (by decide)
  exact ⟨by decide, by decide, by decide, (h.1 (by decide)).1, (h.1 (by decide)).2⟩
